import Mathlib

/-!
Verification of the zarr-view path-pattern query language and tree model.

The definitions below are a shallow embedding of `zarrview/zarr_path_utils.py`
(`slice_path`, `path_slice_regex`, `path_in_slice`, `find_leaves`) and of the
tree-item operations of `zarrview/ZarrViewer.py` (`get_unique_key`,
`insert_child_attr`, `remove_children`, `set_key`, `move_to`).
Python strings are modelled as `String`/`List Char`, Python ints as `Int`,
Python exceptions as `Option.none`.
-/

/-! ## Python string primitives -/

/-- Python `str.strip(chars)` restricted to a decidable set of characters:
drop the characters from both ends. -/
def pyStripChars (p : Char → Bool) (cs : List Char) : List Char :=
  ((cs.dropWhile p).reverse.dropWhile p).reverse

/-- Characters stripped by Python `str.strip()` with no argument. -/
def isPyWS (c : Char) : Bool :=
  c = ' ' || c = '\t' || c = '\n' || c = '\r' || c.toNat = 11 || c.toNat = 12

/-- Python `str.strip()` with no argument. -/
def stripWS (cs : List Char) : List Char :=
  pyStripChars isPyWS cs

/-- Python `str.split(sep)` for a single-character separator.
`''.split(sep)` gives `['']`, hence the `[[]]` base case. -/
def pySplitOn (sep : Char) : List Char → List (List Char)
  | [] => [[]]
  | c :: rest =>
    let r := pySplitOn sep rest
    if c = sep then [] :: r
    else
      match r with
      | [] => [[c]]
      | h :: t => (c :: h) :: t

/-- Decimal value of a list of digit characters. -/
def digitsToNat (ds : List Char) : Nat :=
  ds.foldl (fun a c => a * 10 + (c.toNat - 48)) 0

/-- Digit-string recognizer: nonempty and all characters in `0`..`9`. -/
def allDigits (ds : List Char) : Bool :=
  !ds.isEmpty && ds.all Char.isDigit

/-- Python `int(str)`: optional surrounding whitespace, optional sign,
a nonempty run of decimal digits.  `none` models `ValueError`. -/
def pyInt (cs : List Char) : Option Int :=
  let cs := stripWS cs
  match cs with
  | '-' :: ds => if allDigits ds then some (-(digitsToNat ds : Int)) else none
  | '+' :: ds => if allDigits ds then some (digitsToNat ds : Int) else none
  | ds => if allDigits ds then some (digitsToNat ds : Int) else none

/-- Decimal digit character for a digit value; `*` mirrors the fallback of
numeral printing for an out-of-range digit (never reached for `n % 10`). -/
def digitCh : Nat → Char
  | 0 => '0' | 1 => '1' | 2 => '2' | 3 => '3' | 4 => '4'
  | 5 => '5' | 6 => '6' | 7 => '7' | 8 => '8' | 9 => '9'
  | _ => '*'

/-- Fuelled decimal printing of a natural number, most significant digit
first.  Fuel `n+1` is always sufficient. -/
def natDigitsAux : Nat → Nat → List Char
  | 0, _ => []
  | f + 1, n =>
    if n < 10 then [digitCh n]
    else natDigitsAux f (n / 10) ++ [digitCh (n % 10)]

/-- Python `str(n)` for a natural number. -/
def pyStrNat (n : Nat) : String :=
  String.mk (natDigitsAux (n + 1) n)

/-- Python `str(i)` for an integer. -/
def intRepr (i : Int) : List Char :=
  if i < 0 then '-' :: (pyStrNat i.natAbs).data else (pyStrNat i.natAbs).data

/-- Index of the first occurrence of `pat` inside `cs` (Python `str.find`
for a found substring; `none` for `-1`). -/
def findSub : List Char → List Char → Option Nat
  | cs, pat =>
    if pat.isPrefixOf cs then some 0
    else
      match cs with
      | [] => none
      | _ :: t => (findSub t pat).map (· + 1)

/-- Python `s.replace(old, new, 1)`: replace the first occurrence only. -/
def pyReplaceFirst (s old new : String) : String :=
  match findSub s.data old.data with
  | none => s
  | some i => String.mk (s.data.take i ++ new.data ++ s.data.drop (i + old.data.length))

/-- Index of the last occurrence of `c` (Python `str.rfind`); `none` for `-1`. -/
def rfindIdx (cs : List Char) (c : Char) : Option Nat :=
  match findSub cs.reverse [c] with
  | none => none
  | some i => some (cs.length - 1 - i)

/-- Python `path.endswith(suffix)`. -/
def pyEndsWith (s suffix : String) : Bool :=
  suffix.data.isSuffixOf s.data

/-- Membership of a string in a list of strings (Python `in`). -/
def memStr (k : String) (l : List String) : Bool :=
  l.any (fun s => decide (s = k))

/-! ## Python slices and `slice.indices`

`PySlice` models a Python `slice` object with optional start/stop/step. -/

structure PySlice where
  start : Option Int
  stop : Option Int
  step : Option Int
deriving DecidableEq, Repr

/-- Effective start of a slice for the deferred-check formula (`None` → 0). -/
def PySlice.startD (s : PySlice) : Int := s.start.getD 0

/-- Effective step of a slice (`None` → 1). -/
def PySlice.stepD (s : PySlice) : Int := s.step.getD 1

/-- CPython `slice.indices(length)` (PySlice_GetIndicesEx): clamp start and
stop into range for the given length.  `none` models the `ValueError` raised
for a negative length or a zero step. -/
def pySliceIndices (sl : PySlice) (n : Int) : Option (Int × Int × Int) :=
  if n < 0 then none
  else
    let step := sl.step.getD 1
    if step = 0 then none
    else
      let lower : Int := if step < 0 then -1 else 0
      let upper : Int := if step < 0 then n - 1 else n
      let start :=
        match sl.start with
        | none => if step < 0 then upper else lower
        | some s0 =>
          let s1 := if s0 < 0 then s0 + n else s0
          if s1 < lower then lower else if s1 > upper then upper else s1
      let stop :=
        match sl.stop with
        | none => if step < 0 then lower else upper
        | some e0 =>
          let e1 := if e0 < 0 then e0 + n else e0
          if e1 < lower then lower else if e1 > upper then upper else e1
      some (start, stop, step)

/-- Membership of `i` in Python `range(b, e, st)` (for `st ≠ 0`). -/
def inPyRange (b e st i : Int) : Bool :=
  if 0 < st then decide (b ≤ i ∧ i < e ∧ (i - b) % st = 0)
  else decide (i ≤ b ∧ e < i ∧ (b - i) % (-st) = 0)

/-- Elements of Python `range(b, e, st)` in order, for positive or negative
step; the fuel bounds the number of produced elements. -/
def rangeListAux (st : Int) : Nat → Int → Int → List Int
  | 0, _, _ => []
  | f + 1, b, e =>
    if 0 < st then
      if b < e then b :: rangeListAux st f (b + st) e else []
    else
      if e < b then b :: rangeListAux st f (b + st) e else []

/-- Python `list(range(b, e, st))` for `st ≠ 0`. -/
def rangeList (b e st : Int) : List Int :=
  rangeListAux st (b - e).natAbs b e

/-! ## Path pattern parser (`index_exp`, `name_index_exp`, `slice_path`) -/

/-- One dimension term of an index expression: a single index, an explicit
index list, or a slice (mirrors what `index_exp` produces). -/
inductive IndexTerm where
  | exact : Int → IndexTerm
  | idxList : List Int → IndexTerm
  | slice : PySlice → IndexTerm
deriving DecidableEq, Repr

/-- The zero-width lookahead of `re.split(r',(?=[^\]]*(?:\[|$))', exp)`:
at a comma, the remainder must reach `[` or the end before any `]`. -/
def commaSplitLookahead (rest : List Char) : Bool :=
  !rest.contains ']' || (rest.takeWhile (fun c => c ≠ ']')).contains '['

/-- Split an index expression at the commas accepted by the lookahead
(bracket-aware comma split of `index_exp`). -/
def splitTopCommas : List Char → List (List Char)
  | [] => [[]]
  | c :: rest =>
    if c = ',' && commaSplitLookahead rest then
      [] :: splitTopCommas rest
    else
      match splitTopCommas rest with
      | [] => [[c]]
      | h :: t => (c :: h) :: t

/-- Parse `int(i) if i else None` for a slice component. -/
def sliceComp (p : List Char) : Option (Option Int) :=
  if p.isEmpty then some none else (pyInt p).map some

/-- Parse one comma-separated part of an index expression
(the body of the `for part in parts` loop of `index_exp`). -/
def parseIndexPart (p0 : List Char) : Option IndexTerm :=
  let p := stripWS p0
  if p.head? = some '[' && p.getLast? = some ']' then
    ((pySplitOn ',' (p.drop 1 |>.dropLast)).mapM pyInt).map IndexTerm.idxList
  else if p.contains ':' then
    match (pySplitOn ':' p).mapM sliceComp with
    | some [a, b] => some (IndexTerm.slice ⟨a, b, none⟩)
    | some [a, b, c] => some (IndexTerm.slice ⟨a, b, c⟩)
    | _ => none
  else
    (pyInt p).map IndexTerm.exact

/-- `index_exp(exp)`: convert an index expression string into its dimension
terms.  `none` models the exceptions raised on malformed input. -/
def index_exp (cs : List Char) : Option (List IndexTerm) :=
  (splitTopCommas cs).mapM parseIndexPart

/-- One parsed path segment: a name together with its index terms. -/
abbrev PathSeg := List Char × List IndexTerm

/-- `name_index_exp(exp)`: split `name[indexexpr]` into name and terms. -/
def name_index_exp (cs : List Char) : Option PathSeg :=
  if cs.getLast? = some ']' then
    match findSub cs ['['] with
    | some pos =>
      (index_exp ((cs.drop (pos + 1)).dropLast)).map
        (fun ts => (stripWS (cs.take pos), ts))
    | none => some (cs, [])
  else some (cs, [])

/-- `slice_path(path)`: strip surrounding `/`, split on `/`, parse each
segment. -/
def slice_path (path : String) : Option (List PathSeg) :=
  (pySplitOn '/' (pyStripChars (fun c => c = '/') path.data)).mapM
    (fun part => name_index_exp (stripWS part))

/-! ## Regex construction (`path_slice_regex`)

The regex is built as the literal character string the Python code
concatenates; `none` models the `ValueError` that `slice.indices` raises
while enumerating a bounded slice. -/

/-- Regex text for one index term (the body of the `for ind in indices`
loop of `path_slice_regex`), together with the capture-group slices it
appends. -/
def indexTermRegex (ind : IndexTerm) : Option (List Char × List PySlice) :=
  match ind with
  | .exact n => some ('\\' :: '.' :: intRepr n, [])
  | .idxList ns =>
    some ('\\' :: '.' :: '(' :: '?' :: ':' ::
      (List.intercalate ['|'] (ns.map intRepr) ++ [')']), [])
  | .slice sl =>
    if sl = ⟨none, none, none⟩ then
      some (['\\', '.', '[', '0', '-', '9', ']', '+'], [])
    else if sl.stop = none then
      some (['\\', '.', '(', '[', '0', '-', '9', ']', '+', ')'], [sl])
    else
      match sl.stop with
      | none => none
      | some stopv =>
        match pySliceIndices sl stopv with
        | none => none
        | some (b, e, st) =>
          some ('\\' :: '.' :: '(' :: '?' :: ':' ::
            (List.intercalate ['|'] ((rangeList b e st).map intRepr) ++ [')']), [])

/-- Regex text and capture slices for one path segment (one iteration of
the `for name, indices in path` loop of `path_slice_regex`). -/
def segRegex (seg : PathSeg) : Option (List Char × List PySlice) :=
  match seg with
  | (name, indices) =>
    if name = ['.', '.', '.'] && indices.isEmpty then
      some (['.', '+'], [])
    else if name = ['*'] && indices.isEmpty then
      some (['[', '^', '/', ']', '+', '/'], [])
    else if indices.isEmpty then
      some (name ++ ['/'], [])
    else
      match indices.mapM indexTermRegex with
      | none => none
      | some parts =>
        some (name ++ (parts.map Prod.fst).flatten ++ ['/'],
          (parts.map Prod.snd).flatten)

/-- `path_slice_regex(path)`: concatenate the per-segment regex text and
strip `/` from both ends of the resulting string. -/
def path_slice_regex (segs : List PathSeg) : Option (List Char × List PySlice) :=
  match segs.mapM segRegex with
  | none => none
  | some parts =>
    some (pyStripChars (fun c => c = '/') (parts.map Prod.fst).flatten,
      (parts.map Prod.snd).flatten)

/-! ## Regex interpretation

A small regex engine for the dialect `path_slice_regex` emits, with
Python `re` semantics (greedy quantifiers, leftmost backtracking,
left-to-right alternation, `fullmatch`). -/

/-- Single-character classes occurring in the generated regexes:
a literal character, `.` (any character but newline), `[0-9]`, `[^/]`. -/
inductive CClass where
  | one : Char → CClass
  | anyc : CClass
  | digit : CClass
  | nonSlash : CClass
deriving DecidableEq, Repr

/-- Whether a character is matched by a class. -/
def CClass.mem : CClass → Char → Bool
  | .one c, x => x = c
  | .anyc, x => x ≠ '\n'
  | .digit, x => x.isDigit
  | .nonSlash, x => x ≠ '/'

/-- Regex tokens: a single class occurrence, a greedy `+` repetition of a
class, the capturing group `([0-9]+)`, or a non-capturing alternation of
literal strings `(?:s1|s2|...)`. -/
inductive RTok where
  | cls : CClass → RTok
  | plus : CClass → RTok
  | cap : RTok
  | altLits : List (List Char) → RTok
deriving DecidableEq, Repr

/-- Lexer atoms before `+` lookahead. -/
inductive RAtom where
  | cl : CClass → RAtom
  | capTok : RAtom
  | altTok : List (List Char) → RAtom
deriving DecidableEq, Repr

/-- Characters that a bare (unescaped, outside classes) regex character may
not be for this dialect to interpret it literally. -/
def regexMeta (c : Char) : Bool :=
  c = ')' || c = '+' || c = '*' || c = '?' || c = '|' ||
  c = '^' || c = '$' || c.toNat = 123 || c.toNat = 125

/-- Read one regex atom from the front of the text (`none`: construct
outside the generated dialect). -/
def lexAtom : List Char → Option (RAtom × List Char)
  | [] => none
  | '\\' :: [] => none
  | '\\' :: c :: rest => if c.isAlphanum then none else some (.cl (.one c), rest)
  | '[' :: '0' :: '-' :: '9' :: ']' :: rest => some (.cl .digit, rest)
  | '[' :: '^' :: '/' :: ']' :: rest => some (.cl .nonSlash, rest)
  | '[' :: _ => none
  | '(' :: '[' :: '0' :: '-' :: '9' :: ']' :: '+' :: ')' :: rest =>
    some (.capTok, rest)
  | '(' :: '?' :: ':' :: rest =>
    let body := rest.takeWhile (fun c => c ≠ ')')
    match rest.dropWhile (fun c => c ≠ ')') with
    | ')' :: rest2 =>
      if body.all (fun c => c.isDigit || c = '-' || c = '|') then
        some (.altTok (pySplitOn '|' body), rest2)
      else none
    | _ => none
  | '(' :: _ => none
  | '.' :: rest => some (.cl .anyc, rest)
  | c :: rest => if regexMeta c then none else some (.cl (.one c), rest)

/-- Fuelled tokenizer for the generated regex dialect. -/
def lexRegexAux : Nat → List Char → Option (List RTok)
  | _, [] => some []
  | 0, _ :: _ => none
  | f + 1, cs =>
    match lexAtom cs with
    | none => none
    | some (.cl c, rest) =>
      match rest with
      | '+' :: rest2 => (lexRegexAux f rest2).map (RTok.plus c :: ·)
      | _ => (lexRegexAux f rest).map (RTok.cls c :: ·)
    | some (.capTok, rest) =>
      match rest with
      | '+' :: _ => none
      | _ => (lexRegexAux f rest).map (RTok.cap :: ·)
    | some (.altTok ss, rest) =>
      match rest with
      | '+' :: _ => none
      | _ => (lexRegexAux f rest).map (RTok.altLits ss :: ·)

/-- Tokenize a generated regex string. -/
def lexRegex (cs : List Char) : Option (List RTok) :=
  lexRegexAux cs.length cs

/-- Greedy matching of a `+`-repeated class: try the longest repetition
first (Python backtracking preference), where `next` matches the rest of
the pattern. -/
def runPlus (c : CClass) (next : List Char → Option (List String))
    (cs : List Char) : Nat → Option (List String)
  | 0 => none
  | k + 1 =>
    if (cs.take (k + 1)).all c.mem then
      match next (cs.drop (k + 1)) with
      | some gs => some gs
      | none => runPlus c next cs k
    else runPlus c next cs k

/-- Greedy matching of the capturing group `([0-9]+)`: like `runPlus` on
digits, prepending the captured digit string. -/
def runCap (next : List Char → Option (List String))
    (cs : List Char) : Nat → Option (List String)
  | 0 => none
  | k + 1 =>
    if (cs.take (k + 1)).all Char.isDigit then
      match next (cs.drop (k + 1)) with
      | some gs => some (String.mk (cs.take (k + 1)) :: gs)
      | none => runCap next cs k
    else runCap next cs k

/-- Left-to-right matching of a literal alternation. -/
def runAlts (next : List Char → Option (List String))
    (cs : List Char) : List (List Char) → Option (List String)
  | [] => none
  | s :: ss =>
    if s.isPrefixOf cs then
      match next (cs.drop s.length) with
      | some gs => some gs
      | none => runAlts next cs ss
    else runAlts next cs ss

/-- `re.fullmatch` for the token list: `none` is no match, `some gs` is a
match with captured groups `gs` in capture order, following Python's
backtracking preference order. -/
def rmatch : List RTok → List Char → Option (List String)
  | [], cs => if cs.isEmpty then some [] else none
  | .cls c :: ts, cs =>
    match cs with
    | [] => none
    | x :: rest => if c.mem x then rmatch ts rest else none
  | .plus c :: ts, cs => runPlus c (fun r => rmatch ts r) cs cs.length
  | .cap :: ts, cs => runCap (fun r => rmatch ts r) cs cs.length
  | .altLits ss :: ts, cs => runAlts (fun r => rmatch ts r) cs ss

/-! ## `path_in_slice` -/

/-- The deferred slice checks at the end of `path_in_slice`: for each
captured index string and its slice, `int(group) in
range(*group_slice.indices(index + 1))`.  `none` models the `ValueError`
of `slice.indices` for a zero step.  Stops at the first failing pair. -/
def checkCaps : List (String × PySlice) → Option Bool
  | [] => some true
  | (g, sl) :: rest =>
    let i : Int := (digitsToNat g.data : Int)
    match pySliceIndices sl (i + 1) with
    | none => none
    | some (b, e, st) => if inPyRange b e st i then checkCaps rest else some false

/-- Structural match plus deferred checks for an already compiled pattern
(the body of `path_in_slice` after regex lookup). -/
def pisCore (toks : List RTok) (sls : List PySlice) (path : String) : Option Bool :=
  match rmatch toks path.data with
  | none => some false
  | some caps => checkCaps (caps.zip sls)

/-- `path_in_slice(path, path_slice)` with a pattern string: parse and
compile the pattern, then match.  `none` models an exception escaping. -/
def path_in_slice (path : String) (path_slice : String) : Option Bool :=
  match slice_path path_slice with
  | none => none
  | some segs =>
    match path_slice_regex segs with
    | none => none
    | some (rx, sls) =>
      match lexRegex rx with
      | none => none
      | some toks => pisCore toks sls path

/-! ## Backing hierarchy and `find_leaves`

The backing store is the external zarr library, specified at its
interface: ordered children, pre-order `visitvalues` over all descendants
of the root (container before its children), each visited object carrying
its path, kind, and child count. -/

mutual
/-- A backing hierarchy node: a leaf array, or a container group with an
ordered forest of children. -/
inductive ZNode where
  | arr : String → ZNode
  | grp : String → ZForest → ZNode
deriving Repr
/-- An ordered forest of sibling nodes. -/
inductive ZForest where
  | nil : ZForest
  | cons : ZNode → ZForest → ZForest
deriving Repr
end

/-- Number of children in a forest (`len(obj.keys())`). -/
def ZForest.length : ZForest → Nat
  | .nil => 0
  | .cons _ f => f.length + 1

/-- Forest literal built from a list of nodes. -/
def zf : List ZNode → ZForest
  | [] => .nil
  | n :: rest => .cons n (zf rest)

/-- What the `visitvalues` callback can observe of a visited object:
`obj.path.strip('/')`, `isinstance(obj, zarr.core.Array)`, and
`len(obj.keys())`. -/
structure NodeInfo where
  path : String
  isArr : Bool
  nkids : Nat
deriving DecidableEq, Repr

/-- Path of a child under a (possibly empty) parent path. -/
def joinPath (pre nm : String) : String :=
  if pre = "" then nm else pre ++ "/" ++ nm

mutual
/-- Modelled from the spec: zarr `Group.visitvalues` visit order over the
descendants of a root group — pre-order, a container before its children,
children in their stored order (the zarr library itself is outside this
repository). -/
def visitN : ZNode → String → List NodeInfo
  | .arr nm, pre => [⟨joinPath pre nm, true, 0⟩]
  | .grp nm cs, pre =>
    ⟨joinPath pre nm, false, cs.length⟩ :: visitFor cs (joinPath pre nm)
/-- Visit list of a forest of siblings under a given parent path. -/
def visitFor : ZForest → String → List NodeInfo
  | .nil, _ => []
  | .cons n rest, pre => visitN n pre ++ visitFor rest pre
end

/-- The full pre-order visit list of the descendants of a root group. -/
def visitAll (children : ZForest) : List NodeInfo :=
  visitFor children ""

/-- Is a visited object a "true leaf" in the sense of `find_leaves`:
not a group, or a group with no keys. -/
def leafP (n : NodeInfo) : Bool :=
  n.isArr || n.nkids = 0

/-- The `_find_leaves` callback folded over the visit order: skip objects
excluded by the include toggles, keep objects whose path matches, and,
when the pattern string ends with `...`, keep only true leaves. -/
def collectLeaves (endsDots incA incG : Bool) (toks : List RTok)
    (sls : List PySlice) : List NodeInfo → Option (List NodeInfo)
  | [] => some []
  | n :: rest =>
    if (n.isArr && !incA) || (!n.isArr && !incG) then
      collectLeaves endsDots incA incG toks sls rest
    else
      match pisCore toks sls n.path with
      | none => none
      | some m =>
        match collectLeaves endsDots incA incG toks sls rest with
        | none => none
        | some tail =>
          if m then
            if endsDots then
              if leafP n then some (n :: tail) else some tail
            else some (n :: tail)
          else some tail

/-- The same fold without the leaves-only filter: every structural match
passing the include toggles is kept.  Stated from the spec's words for
comparison with `collectLeaves`. -/
def collectMatches (incA incG : Bool) (toks : List RTok)
    (sls : List PySlice) : List NodeInfo → Option (List NodeInfo)
  | [] => some []
  | n :: rest =>
    if (n.isArr && !incA) || (!n.isArr && !incG) then
      collectMatches incA incG toks sls rest
    else
      match pisCore toks sls n.path with
      | none => none
      | some m =>
        match collectMatches incA incG toks sls rest with
        | none => none
        | some tail => if m then some (n :: tail) else some tail

/-- `find_leaves(root, path_slice, include_arrays, include_groups)` over
the children of the root group.  `none` models an exception escaping. -/
def find_leaves (children : ZForest) (path_slice : String)
    (incA incG : Bool) : Option (List NodeInfo) :=
  match slice_path path_slice with
  | none => none
  | some segs =>
    match path_slice_regex segs with
    | none => none
    | some (rx, sls) =>
      match lexRegex rx with
      | none => none
      | some toks =>
        collectLeaves (pyEndsWith path_slice "...") incA incG toks sls
          (visitAll children)

/-- Every structural match (no leaves-only filter), for comparing
`find_leaves` against the spec's description. -/
def find_matches (children : ZForest) (path_slice : String)
    (incA incG : Bool) : Option (List NodeInfo) :=
  match slice_path path_slice with
  | none => none
  | some segs =>
    match path_slice_regex segs with
    | none => none
    | some (rx, sls) =>
      match lexRegex rx with
      | none => none
      | some toks =>
        collectMatches incA incG toks sls (visitAll children)

/-! ## Unique key generation (`ZarrTreeItem.get_unique_key`) -/

/-- Python `key[:key.rfind('_') + 1] + str(i)`: replace everything after
the last underscore with the decimal numeral of the counter `i` (with no
underscore, `rfind` gives `-1` and the whole key is replaced). -/
def bumpKey (key : String) (i : Nat) : String :=
  match rfindIdx key.data '_' with
  | none => pyStrNat i
  | some pos => String.mk (key.data.take (pos + 1)) ++ pyStrNat i

/-- The `while key in sibling_keys` loop of `get_unique_key`, fuelled;
`none` marks fuel exhaustion (unreachable for the supplied fuel, since
successive candidates are distinct). -/
def uniqueLoop : Nat → String → Nat → List String → Option String
  | 0, _, _, _ => none
  | f + 1, key, i, sibs =>
    if memStr key sibs then uniqueLoop f (bumpKey key i) (i + 1) sibs
    else some key

/-- Lines 182–190 of `get_unique_key`: the suffix-increment search over a
given list of sibling keys. -/
def unique_key_core (key : String) (sibs : List String) : Option String :=
  if memStr key sibs then uniqueLoop (sibs.length + 1) (key ++ "_1") 2 sibs
  else some key

/-- Candidate number `j ≥ 1` of the collision chain for desired key `k`. -/
def candKey (k : String) (j : Nat) : String :=
  k ++ "_" ++ pyStrNat j

/-- Kind of a tree item: zarr group, zarr array, or attr. -/
inductive IKind where
  | group : IKind
  | array : IKind
  | attr : IKind
deriving DecidableEq, Repr

/-- The sibling keys `get_unique_key` collects for an item of the given
kind (with the default `include_self=True`, every sibling passes the
identity filter): group/array items see only group/array siblings, attr
items see only attr siblings. -/
def kindKeys (selfKind : IKind) (sibs : List (IKind × String)) : List String :=
  match selfKind with
  | .group | .array =>
    (sibs.filter (fun s => decide (s.1 = .group ∨ s.1 = .array))).map Prod.snd
  | .attr => (sibs.filter (fun s => decide (s.1 = .attr))).map Prod.snd

/-- `ZarrTreeItem.get_unique_key(key)` for an item of the given kind whose
parent's child list is `sibs` (`hasParent = false` models
`parent_item is None`, returning the key unchanged). -/
def item_get_unique_key (hasParent : Bool) (selfKind : IKind) (key : String)
    (sibs : List (IKind × String)) : Option String :=
  if hasParent then unique_key_core key (kindKeys selfKind sibs)
  else some key

/-! ## List-attribute insert/remove (`insert_child_attr`, `remove_children`)

State of a tree item whose value is a list attribute: the backing list
value and the `item_data` integers of its child `AttrKey` items. -/

structure ListAttrState (α : Type) where
  values : List α
  items : List Int
deriving DecidableEq, Repr

/-- Python `list.insert(pos, v)`: negative positions count from the end,
out-of-range positions are clamped. -/
def pyListInsert {α : Type} (l : List α) (pos : Int) (v : α) : List α :=
  let n : Int := l.length
  let p := if pos < 0 then max 0 (pos + n) else min pos n
  l.insertIdx p.toNat v

/-- Python `del l[k]`: negative indices count from the end; `none` models
`IndexError`. -/
def pyDelIdx {α : Type} (l : List α) (k : Int) : Option (List α) :=
  let n : Int := l.length
  let k2 := if k < 0 then k + n else k
  if 0 ≤ k2 ∧ k2 < n then some (l.eraseIdx k2.toNat) else none

/-- `insert_child_attr(position, value)` for an attr item whose resolved
container is a list: guard the position, insert the value into the list,
insert a new child item carrying `position` as its `item_data`, then
increment the `item_data` of every child item at index `position+1`
onwards.  `none` models the `False` return for a bad position. -/
def insert_child_attr {α : Type} (s : ListAttrState α) (position : Int)
    (v : α) : Option (ListAttrState α) :=
  if position < 0 ∨ position > (s.items.length : Int) then none
  else
    let vals := pyListInsert s.values position v
    let items1 := pyListInsert s.items position position
    let items2 := items1.mapIdx (fun i x => if position + 1 ≤ (i : Int) then x + 1 else x)
    some ⟨vals, items2⟩

/-- `remove_children(position, 1)` for the same item: guard the position,
pop the child item, delete the popped item's index from the backing list,
then decrement the `item_data` of every remaining child item at index
`position` onwards.  `none` models both the `False` return for a bad
position and an `IndexError` from the deletion. -/
def remove_child_attr {α : Type} (s : ListAttrState α) (position : Int) :
    Option (ListAttrState α) :=
  if position < 0 ∨ position + 1 > (s.items.length : Int) then none
  else
    match s.items.get? position.toNat with
    | none => none
    | some key =>
      let rest := s.items.eraseIdx position.toNat
      match pyDelIdx s.values key with
      | none => none
      | some vals2 =>
        let items2 := rest.mapIdx (fun i x => if position ≤ (i : Int) then x - 1 else x)
        some ⟨vals2, items2⟩

/-! ## Rename and move (`set_key`, `move_to`)

The backing store is external; it is modelled as an abstract state `σ`
with a rename operation `ren : σ → String → String → Option σ` whose
`none` result stands for an exception raised by `store.rename` (caught by
the bare `except`).  The tree item is modelled as the group/array subtree
being renamed/moved, each node carrying its cached zarr path. -/

/-- A group/array tree item: its zarr object's path and its child items. -/
inductive TItem where
  | node : String → List TItem → TItem
deriving Repr

/-- Cached path of an item. -/
def TItem.path : TItem → String
  | .node p _ => p

/-- Child items of an item. -/
def TItem.children : TItem → List TItem
  | .node _ cs => cs

/-- Apply a path rewrite to every item of a subtree (the
`for item in self.subtree_itemlist()` loop). -/
def mapPaths (f : String → String) : TItem → TItem
  | .node p cs => .node (f p) (mapPathsL f cs)
where
  /-- List version of `mapPaths`. -/
  mapPathsL (f : String → String) : List TItem → List TItem
    | [] => []
    | t :: ts => mapPaths f t :: mapPathsL f ts

/-- Last component of a stored path (`path.strip('/').split('/')[-1]`,
the item's `key()`). -/
def lastComp (p : String) : String :=
  String.mk (((pySplitOn '/' (pyStripChars (fun c => c = '/') p.data)).reverse.head?).getD [])

/-- Python `str(key).strip().strip('/')` from `set_key`. -/
def strippedKey (k : String) : String :=
  String.mk (pyStripChars (fun c => c = '/') (stripWS k.data))

/-- `ZarrTreeItem.set_key(key)` for a group/array item.  `st` is the
backing-store state, `hasParent`/`sibs` describe the parent's child list
for unique-key generation, `self` is the item's subtree.  Returns the new
store state, the new subtree, and the boolean result; `none` models fuel
exhaustion inside unique-key generation only. -/
def zset_key (σ : Type) (ren : σ → String → String → Option σ) (st : σ)
    (hasParent : Bool) (sibs : List (IKind × String)) (self : TItem)
    (keyIn : String) : Option (σ × TItem × Bool) :=
  if keyIn = lastComp self.path then some (st, self, false)
  else
    let k1 := strippedKey keyIn
    if k1.data.contains '/' then some (st, self, false)
    else
      match item_get_unique_key hasParent IKind.group k1 sibs with
      | none => none
      | some k2 =>
        let old_path := self.path
        let keep :=
          match rfindIdx old_path.data '/' with
          | none => []
          | some pos => old_path.data.take (pos + 1)
        let new_path := String.mk (keep ++ k2.data)
        if new_path = old_path then some (st, self, false)
        else
          match ren st old_path new_path with
          | none => some (st, self, false)
          | some st2 =>
            let t1 := TItem.node new_path self.children
            some (st2, mapPaths (fun p => pyReplaceFirst p old_path new_path) t1, true)

/-- `ZarrTreeItem.move_to(dst_parent, dst_position)` for the moved
subtree.  The destination parent is described by its kind, identity with
the current parent, child keys and path; the in-memory relinking on
success is represented by the rewritten subtree. -/
def zmove_to (σ : Type) (ren : σ → String → String → Option σ) (st : σ)
    (hasParent : Bool) (selfIsGrpArr : Bool) (self : TItem)
    (dstIsGroup : Bool) (dstIsSelfParent : Bool)
    (dstChildKeys : List String) (dstPath : String) : σ × TItem × Bool :=
  if !hasParent then (st, self, false)
  else if !selfIsGrpArr then (st, self, false)
  else if !dstIsGroup then (st, self, false)
  else if !hasParent then (st, self, false)
  else if dstIsSelfParent then (st, self, false)
  else
    let src_key := lastComp self.path
    if memStr src_key dstChildKeys then (st, self, false)
    else
      let src_path := self.path
      let dst_path := dstPath ++ "/" ++ src_key
      match ren st src_path dst_path with
      | none => (st, self, false)
      | some st2 =>
        (st2, mapPaths (fun p => pyReplaceFirst p src_path dst_path) self, true)

/-! ## Concrete hierarchies used in the theorems -/

/-- A trace group holding one `ydata` array, as in the repository's test
hierarchy. -/
def traceGrp (nm : String) : ZNode :=
  ZNode.grp nm (zf [ZNode.arr "ydata"])

/-- The hierarchy built by `test_find_leaves`: `run.0` with two sweeps,
each with two channels; `channel.0` and `channel.1` of `sweep.0` hold
traces 0–2, the channels of `sweep.1` hold traces 0–1; every trace holds
one `ydata` array. -/
def testTree : ZForest :=
  zf [ZNode.grp "run.0" (zf
    [ZNode.grp "sweep.0" (zf
      [ZNode.grp "channel.0" (zf [traceGrp "trace.0", traceGrp "trace.1", traceGrp "trace.2"]),
       ZNode.grp "channel.1" (zf [traceGrp "trace.0", traceGrp "trace.1", traceGrp "trace.2"])]),
     ZNode.grp "sweep.1" (zf
      [ZNode.grp "channel.0" (zf [traceGrp "trace.0", traceGrp "trace.1"]),
       ZNode.grp "channel.1" (zf [traceGrp "trace.0", traceGrp "trace.1"])])])]

/-- A hierarchy with one non-empty group `abcd`: its name is matched by
the regex text `a...` although it is not named by any ellipsis segment. -/
def dotsTree : ZForest :=
  zf [ZNode.grp "abcd" (zf [ZNode.arr "x"])]

/-- Characters with no special role anywhere in the pipeline: not the
path separator, not index-expression syntax (`[`, `]`, `,`, `:`), not the
wildcard or an ellipsis dot, not a regex metacharacter (escape, group,
quantifier, …) and not whitespace.  A name made of such characters passes
through parsing and regex construction verbatim. -/
def plainChar (c : Char) : Bool :=
  !(c = '/' || c = '[' || c = ']' || c = '*' || c = '.' || c = ',' || c = ':' ||
    c = '\\' || c = '(' || regexMeta c || isPyWS c)

/-! ## Helper lemmas -/

/-- Rebuilding a string from its character data is the identity. -/
theorem stringMk_data (s : String) : String.mk s.data = s := by
  cases s
  rfl

/-- Evaluation rule for `path_in_slice` once the pattern has been parsed,
compiled and tokenized. -/
theorem path_in_slice_eval (p pat : String) (segs : List PathSeg)
    (rx : List Char) (sls : List PySlice) (toks : List RTok)
    (h1 : slice_path pat = some segs)
    (h2 : path_slice_regex segs = some (rx, sls))
    (h3 : lexRegex rx = some toks) :
    path_in_slice p pat = pisCore toks sls p := by
  simp only [path_in_slice, h1, h2, h3]

/-- Matching a sequence of literal character tokens matches exactly that
character sequence. -/
theorem rmatch_one_chars (ks cs : List Char) :
    rmatch (ks.map (fun c => RTok.cls (CClass.one c))) cs =
      if cs = ks then some [] else none := by
  induction ks generalizing cs with
  | nil =>
    cases cs with
    | nil => rfl
    | cons x rest => rfl
  | cons k ks ih =>
    cases cs with
    | nil => rfl
    | cons x rest =>
      simp only [List.map, rmatch, CClass.mem, ih]
      by_cases hx : x = k
      · subst hx
        by_cases hr : rest = ks
        · simp [hr]
        · simp [hr]
      · simp [hx, Ne.symm hx]

/-- For a deferred slice (no stop) with nonnegative/omitted start and
positive/omitted step, `slice.indices(i+1)` clamps the start to
`min start (i+1)` and keeps stop `i+1` and the step. -/
theorem pySliceIndices_deferred (sl : PySlice) (i : Int) (hi : 0 ≤ i)
    (hstart : 0 ≤ sl.startD) (hstep : 1 ≤ sl.stepD) (hstop : sl.stop = none) :
    pySliceIndices sl (i + 1) = some (min sl.startD (i + 1), i + 1, sl.stepD) := by
  have hs' : sl.step.getD 1 = sl.stepD := rfl
  cases hst : sl.start with
  | none =>
    have hsd : sl.startD = 0 := by simp [PySlice.startD, hst]
    rw [hsd]
    simp only [pySliceIndices, hstop, hst, hs']
    split_ifs <;> first
      | omega
      | (simp only [Option.some.injEq, Prod.mk.injEq]; exact ⟨by omega, trivial⟩)
  | some s0 =>
    have hsd : sl.startD = s0 := by simp [PySlice.startD, hst]
    rw [hsd]
    rw [hsd] at hstart
    simp only [pySliceIndices, hstop, hst, hs']
    split_ifs <;> first
      | omega
      | (simp only [Option.some.injEq, Prod.mk.injEq]; exact ⟨by omega, trivial⟩)

/-- For a deferred slice as above, membership of the captured index in
`range(*slice.indices(index+1))` is exactly `start ≤ i` and
`(i - start) % step = 0`. -/
theorem inPyRange_deferred (sl : PySlice) (i : Int) (_hi : 0 ≤ i)
    (_hstart : 0 ≤ sl.startD) (hstep : 1 ≤ sl.stepD) :
    inPyRange (min sl.startD (i + 1)) (i + 1) sl.stepD i =
      decide (sl.startD ≤ i ∧ (i - sl.startD) % sl.stepD = 0) := by
  unfold inPyRange
  have hpos : 0 < sl.stepD := by omega
  rw [if_pos hpos, decide_eq_decide]
  by_cases hle : sl.startD ≤ i
  · have hmin : min sl.startD (i + 1) = sl.startD := by omega
    rw [hmin]
    constructor
    · rintro ⟨a, -, c⟩
      exact ⟨a, c⟩
    · rintro ⟨a, c⟩
      exact ⟨a, by omega, c⟩
  · have hmin : min sl.startD (i + 1) = i + 1 := by omega
    rw [hmin]
    constructor
    · rintro ⟨a, -, -⟩
      omega
    · rintro ⟨a, -⟩
      omega

/-- One step of the deferred checks under the side conditions. -/
theorem checkCaps_cons (g : String) (sl : PySlice)
    (rest : List (String × PySlice))
    (hstart : 0 ≤ sl.startD) (hstep : 1 ≤ sl.stepD) (hstop : sl.stop = none) :
    checkCaps ((g, sl) :: rest) =
      if sl.startD ≤ (digitsToNat g.data : Int) ∧
          ((digitsToNat g.data : Int) - sl.startD) % sl.stepD = 0 then
        checkCaps rest
      else some false := by
  have hi : (0 : Int) ≤ (digitsToNat g.data : Int) := Int.ofNat_nonneg _
  simp only [checkCaps]
  rw [pySliceIndices_deferred sl _ hi hstart hstep hstop]
  dsimp only
  rw [inPyRange_deferred sl _ hi hstart hstep]
  by_cases h : sl.startD ≤ (digitsToNat g.data : Int) ∧
      ((digitsToNat g.data : Int) - sl.startD) % sl.stepD = 0
  · rw [if_pos h, if_pos (by exact decide_eq_true h)]
  · rw [if_neg h, if_neg (by simp only [decide_eq_true_eq]; exact h)]

/-- The deferred checks of `path_in_slice` pass exactly when every
captured index satisfies the spec's arithmetic formula, provided every
involved slice has nonnegative/omitted start, positive/omitted step and
no stop. -/
theorem checkCaps_iff (l : List (String × PySlice))
    (h : ∀ pr ∈ l, 0 ≤ pr.2.startD ∧ 1 ≤ pr.2.stepD ∧ pr.2.stop = none) :
    (checkCaps l = some true ↔
      ∀ pr ∈ l, pr.2.startD ≤ (digitsToNat pr.1.data : Int) ∧
        ((digitsToNat pr.1.data : Int) - pr.2.startD) % pr.2.stepD = 0) := by
  induction l with
  | nil => simp [checkCaps]
  | cons pr rest ih =>
    obtain ⟨g, sl⟩ := pr
    have hhead := h (g, sl) (by simp)
    have htail : ∀ pr ∈ rest, 0 ≤ pr.2.startD ∧ 1 ≤ pr.2.stepD ∧ pr.2.stop = none :=
      fun pr hpr => h pr (List.mem_cons_of_mem _ hpr)
    rw [checkCaps_cons g sl rest hhead.1 hhead.2.1 hhead.2.2]
    by_cases hf : sl.startD ≤ (digitsToNat g.data : Int) ∧
        ((digitsToNat g.data : Int) - sl.startD) % sl.stepD = 0
    · rw [if_pos hf, ih htail]
      constructor
      · intro hrest pr hpr
        rcases List.mem_cons.mp hpr with h1 | h2
        · rw [h1]
          exact hf
        · exact hrest pr h2
      · intro hall pr hpr
        exact hall pr (List.mem_cons_of_mem _ hpr)
    · rw [if_neg hf]
      constructor
      · intro hfalse
        exact Bool.noConfusion (Option.some.inj hfalse)
      · intro hall
        exact absurd (hall (g, sl) (by simp)) hf

/-! ## Claim theorems -/

/-- C1, counterexample: the claim's deferred-check formula
(`i >= start` and `(i - start) % step == 0`) is violated by the code for a
negative start.  For pattern `a[-1::2]` (deferred slice `start=-1`,
`step=2`) and candidate `a.0`, the captured index is `0` and
`(0 - (-1)) % 2 ≠ 0`, so the claim says no match; but
`slice.indices(0+1)` clamps the start to `0`, so `path_in_slice`
accepts the path. -/
theorem c1_counterexample :
    path_in_slice "a.0" "a[-1::2]" = some true ∧
    slice_path "a[-1::2]" =
      some [(['a'], [IndexTerm.slice ⟨some (-1), none, some 2⟩])] ∧
    ¬(((0 : Int) - (-1)) % 2 = 0) := by
  refine ⟨by decide, by decide, by decide⟩

/-- C1, amended: for every candidate path and compiled pattern whose
deferred slices all have a nonnegative (or omitted) start and a positive
(or omitted) step, the candidate matches iff the structural regex match
succeeds and every captured index `i`, paired left-to-right with its
slice, satisfies `start ≤ i` and `(i - start) % step = 0` (no upper
bound); with a negative start the code instead clamps it to `0` via
`slice.indices`.  In particular `run[0]/sweep[:]/channel[1:]/trace[:]`
does not match `run.0/sweep.1/channel.0/trace.2` but does match
`run.0/sweep.1/channel.1/trace.2`. -/
theorem c1_deferred_checks :
    (∀ (pat path : String) (segs : List PathSeg) (rx : List Char)
      (sls : List PySlice) (toks : List RTok),
      slice_path pat = some segs →
      path_slice_regex segs = some (rx, sls) →
      lexRegex rx = some toks →
      (∀ sl ∈ sls, 0 ≤ sl.startD ∧ 1 ≤ sl.stepD ∧ sl.stop = none) →
      (path_in_slice path pat = some true ↔
        ∃ caps, rmatch toks path.data = some caps ∧
          ∀ pr ∈ caps.zip sls,
            pr.2.startD ≤ (digitsToNat pr.1.data : Int) ∧
              ((digitsToNat pr.1.data : Int) - pr.2.startD) % pr.2.stepD = 0)) ∧
    path_in_slice "run.0/sweep.1/channel.0/trace.2"
      "run[0]/sweep[:]/channel[1:]/trace[:]" = some false ∧
    path_in_slice "run.0/sweep.1/channel.1/trace.2"
      "run[0]/sweep[:]/channel[1:]/trace[:]" = some true := by
  refine ⟨?_, by decide, by decide⟩
  intro pat path segs rx sls toks h1 h2 h3 hsl
  rw [path_in_slice_eval path pat segs rx sls toks h1 h2 h3]
  unfold pisCore
  cases hm : rmatch toks path.data with
  | none =>
    simp only [hm]
    constructor
    · intro hfalse
      exact Bool.noConfusion (Option.some.inj hfalse)
    · rintro ⟨caps, hcaps, -⟩
      exact Option.noConfusion hcaps
  | some caps =>
    have hz : ∀ pr ∈ caps.zip sls, 0 ≤ pr.2.startD ∧ 1 ≤ pr.2.stepD ∧ pr.2.stop = none := by
      intro pr hpr
      exact hsl pr.2 (List.of_mem_zip hpr).2
    rw [checkCaps_iff (caps.zip sls) hz]
    constructor
    · intro hall
      exact ⟨caps, rfl, hall⟩
    · rintro ⟨caps2, hc2, hall⟩
      rw [Option.some.inj hc2]
      exact hall

/-- C1 witness: the amended equivalence applied to the concrete pattern
`b[1:]` and path `b.3`. -/
theorem c1_witness :
    path_in_slice "b.3" "b[1:]" = some true ↔
      ∃ caps, rmatch [RTok.cls (CClass.one 'b'), RTok.cls (CClass.one '.'), RTok.cap]
          "b.3".data = some caps ∧
        ∀ pr ∈ caps.zip [(⟨some 1, none, none⟩ : PySlice)],
          pr.2.startD ≤ (digitsToNat pr.1.data : Int) ∧
            ((digitsToNat pr.1.data : Int) - pr.2.startD) % pr.2.stepD = 0 :=
  c1_deferred_checks.1 "b[1:]" "b.3"
    [(['b'], [IndexTerm.slice ⟨some 1, none, none⟩])]
    ['b', '\\', '.', '(', '[', '0', '-', '9', ']', '+', ')']
    [⟨some 1, none, none⟩]
    [RTok.cls (CClass.one 'b'), RTok.cls (CClass.one '.'), RTok.cap]
    (by decide) (by decide) (by decide) (by decide)

/-- C2: over the test hierarchy (three trace children under
`run.0/sweep.0/channel.0`, each with a `ydata` descendant),
`find_leaves('run[0]/sweep[0]/channel[0]/trace[:]')` returns exactly those
three trace groups, in stored traversal order, and no descendant of a
matched node; the pattern also rejects the prefix-extension
`.../trace.0/ydata` (full matches only). -/
theorem c2_find_leaves_traces :
    find_leaves testTree "run[0]/sweep[0]/channel[0]/trace[:]" true true =
      some [⟨"run.0/sweep.0/channel.0/trace.0", false, 1⟩,
            ⟨"run.0/sweep.0/channel.0/trace.1", false, 1⟩,
            ⟨"run.0/sweep.0/channel.0/trace.2", false, 1⟩] ∧
    path_in_slice "run.0/sweep.0/channel.0/trace.0/ydata"
      "run[0]/sweep[0]/channel[0]/trace[:]" = some false := by
  refine ⟨by decide, by decide⟩

/-- C3, counterexample: the ellipsis is not aligned on `/` component
boundaries — in `.../channel[0]/trace[:]` the `...` compiles to `.+` with
no following separator, so it absorbs the proper substring `my` of the
component `mychannel.0` and the pattern matches. -/
theorem c3_counterexample :
    path_in_slice "mychannel.0/trace.0" ".../channel[0]/trace[:]" = some true := by
  decide

/-- C3, amended: an `...` segment matches one or more arbitrary
characters (not whole components): `.../channel[0]/trace[:]` matches the
component-aligned `run.0/channel.0/trace.1`, also matches `Xchannel.0/trace.1`
where the ellipsis consumes a proper substring of a component, and does
not match `channel.0/trace.1` where the ellipsis would have to consume
nothing. -/
theorem c3_ellipsis_characters :
    path_in_slice "run.0/channel.0/trace.1" ".../channel[0]/trace[:]" = some true ∧
    path_in_slice "Xchannel.0/trace.1" ".../channel[0]/trace[:]" = some true ∧
    path_in_slice "channel.0/trace.1" ".../channel[0]/trace[:]" = some false := by
  refine ⟨by decide, by decide, by decide⟩


/-- A plain character is none of the characters the parser, the regex
builder, or the regex engine treat specially. -/
theorem plainChar_spec (c : Char) (h : plainChar c = true) :
    c ≠ '/' ∧ c ≠ '[' ∧ c ≠ ']' ∧ c ≠ '*' ∧ c ≠ '.' ∧ c ≠ ',' ∧ c ≠ ':' ∧
    c ≠ '\\' ∧ c ≠ '(' ∧ regexMeta c = false ∧ isPyWS c = false := by
  unfold plainChar at h
  simp only [Bool.not_eq_true', Bool.or_eq_false_iff, decide_eq_false_iff_not] at h
  exact ⟨h.1.1.1.1.1.1.1.1.1.1, h.1.1.1.1.1.1.1.1.1.2, h.1.1.1.1.1.1.1.1.2,
    h.1.1.1.1.1.1.1.2, h.1.1.1.1.1.1.2, h.1.1.1.1.1.2, h.1.1.1.1.2, h.1.1.1.2,
    h.1.1.2, h.1.2, h.2⟩

/-- The regex lexer reads a plain character as a literal one-character
class. -/
theorem lexAtom_plain (c : Char) (rest : List Char) (h : plainChar c = true) :
    lexAtom (c :: rest) = some (RAtom.cl (CClass.one c), rest) := by
  obtain ⟨h1, h2, h3, h4, h5, h6, h7, h8, h9, h10, h11⟩ := plainChar_spec c h
  rw [lexAtom.eq_def]
  split
  all_goals first
    | (exfalso; simp_all; done)
    | (rename_i heq; rw [← (List.cons.inj heq).1, ← (List.cons.inj heq).2]; simp [h10])

/-- The regex lexer turns a string of plain characters into the matching
sequence of literal tokens (no `+` can follow, `+` not being plain). -/
theorem lexRegexAux_plain (f : Nat) :
    ∀ (cs : List Char), cs.all plainChar = true → cs.length ≤ f →
      lexRegexAux f cs = some (cs.map (fun c => RTok.cls (CClass.one c))) := by
  induction f with
  | zero =>
    intro cs hall hlen
    have : cs = [] := List.eq_nil_of_length_eq_zero (Nat.le_zero.mp hlen)
    subst this
    rfl
  | succ f ih =>
    intro cs hall hlen
    cases cs with
    | nil => rfl
    | cons c rest =>
      have hc : plainChar c = true := by
        have := List.all_eq_true.mp hall
        exact this c (List.mem_cons_self c rest)
      have hrest : rest.all plainChar = true := by
        rw [List.all_eq_true]
        intro x hx
        exact List.all_eq_true.mp hall x (List.mem_cons_of_mem c hx)
      rw [lexRegexAux.eq_def]
      dsimp only
      rw [lexAtom_plain c rest hc]
      dsimp only
      cases rest with
      | nil =>
        dsimp only
        rw [ih [] rfl (Nat.zero_le f)]
        rfl
      | cons r rrest =>
        have hr : plainChar r = true :=
          List.all_eq_true.mp hrest r (List.mem_cons_self r rrest)
        have hrp : r ≠ '+' := by
          rintro rfl
          exact absurd hr (by decide)
        split
        · rename_i heq
          exact absurd (List.cons.inj heq).1 hrp
        · rw [ih (r :: rrest) hrest (by simp at hlen ⊢; omega)]
          rfl

/-- Tokenization of an all-plain regex string. -/
theorem lexRegex_plain (cs : List Char) (hall : cs.all plainChar = true) :
    lexRegex cs = some (cs.map (fun c => RTok.cls (CClass.one c))) :=
  lexRegexAux_plain cs.length cs hall (le_refl _)

/-- Dropping while a predicate that holds nowhere drops nothing. -/
theorem dropWhile_all_false (p : Char → Bool) (cs : List Char)
    (h : ∀ c ∈ cs, p c = false) : cs.dropWhile p = cs := by
  cases cs with
  | nil => rfl
  | cons c t =>
    rw [List.dropWhile_cons, if_neg]
    rw [h c (List.mem_cons_self c t)]
    exact Bool.false_ne_true

/-- Stripping characters that do not occur is the identity. -/
theorem pyStripChars_all_false (p : Char → Bool) (cs : List Char)
    (h : ∀ c ∈ cs, p c = false) : pyStripChars p cs = cs := by
  unfold pyStripChars
  rw [dropWhile_all_false p cs h,
    dropWhile_all_false p cs.reverse (fun c hc => h c (List.mem_reverse.mp hc)),
    List.reverse_reverse]

/-- Splitting on an absent separator yields the whole string. -/
theorem pySplitOn_no_sep (sep : Char) (cs : List Char)
    (h : ∀ c ∈ cs, c ≠ sep) : pySplitOn sep cs = [cs] := by
  induction cs with
  | nil => rfl
  | cons c t ih =>
    have hct : ¬(c = sep) := h c (List.mem_cons_self c t)
    have ht : ∀ x ∈ t, x ≠ sep := fun x hx => h x (List.mem_cons_of_mem c hx)
    rw [pySplitOn]
    rw [ih ht]
    simp [hct]

/-- A string of plain characters has no whitespace to strip. -/
theorem stripWS_plain (cs : List Char) (hall : cs.all plainChar = true) :
    stripWS cs = cs := by
  unfold stripWS
  apply pyStripChars_all_false
  intro c hc
  exact (plainChar_spec c (List.all_eq_true.mp hall c hc)).2.2.2.2.2.2.2.2.2.2

/-- Parsing a pattern string that is a single all-plain name yields one
bare segment carrying that name and no index terms. -/
theorem slice_path_plain (name : String)
    (hall : name.data.all plainChar = true) :
    slice_path name = some [(name.data, [])] := by
  have hc : ∀ c ∈ name.data, plainChar c = true := List.all_eq_true.mp hall
  unfold slice_path
  rw [pyStripChars_all_false _ name.data (fun c hcm => by
    rw [decide_eq_false_iff_not]
    exact (plainChar_spec c (hc c hcm)).1)]
  rw [pySplitOn_no_sep '/' name.data (fun c hcm => (plainChar_spec c (hc c hcm)).1)]
  have hginst : name_index_exp (stripWS name.data) = some (name.data, []) := by
    rw [stripWS_plain name.data hall]
    unfold name_index_exp
    rw [if_neg]
    intro hlast
    have hmem : ']' ∈ name.data := by
      cases hg : name.data.getLast? with
      | none => rw [hg] at hlast; exact Option.noConfusion hlast
      | some x =>
        rw [hg] at hlast
        have hx : x = ']' := Option.some.inj hlast
        subst hx
        exact List.mem_of_mem_getLast? hg
    exact absurd (hc ']' hmem) (by decide)
  simp [List.mapM.loop, hginst]

/-- Option-monad `mapM` over a singleton list. -/
theorem mapM_singleton {α β : Type} (f : α → Option β) (a : α) :
    [a].mapM f = (f a).bind (fun x => some [x]) := rfl

/-- Stripping the final separator the regex builder appends after a
slash-free nonempty name just removes it. -/
theorem pyStripChars_plain_slash (cs : List Char) (hne : cs ≠ [])
    (h : ∀ c ∈ cs, ¬(c = '/')) :
    pyStripChars (fun c => c = '/') (cs ++ ['/']) = cs := by
  cases cs with
  | nil => exact absurd rfl hne
  | cons c t =>
    unfold pyStripChars
    have hc : (decide (c = '/')) = false :=
      decide_eq_false (h c (List.mem_cons_self c t))
    have h1 : List.dropWhile (fun c => decide (c = '/')) ((c :: t) ++ ['/']) =
        (c :: t) ++ ['/'] := by
      rw [List.cons_append, List.dropWhile_cons, if_neg]
      rw [hc]
      exact Bool.false_ne_true
    rw [h1]
    have h2 : ((c :: t) ++ ['/']).reverse = '/' :: (c :: t).reverse := by simp
    rw [h2, List.dropWhile_cons, if_pos (by decide)]
    rw [dropWhile_all_false _ _ (fun x hx =>
      decide_eq_false (h x (List.mem_reverse.mp hx)))]
    exact List.reverse_reverse _

/-- Compiling the single bare all-plain segment produces the name itself
as regex text, with no capture slices. -/
theorem path_slice_regex_plain (cs : List Char) (hne : cs ≠ [])
    (hall : cs.all plainChar = true) :
    path_slice_regex [(cs, [])] = some (cs, []) := by
  have hc : ∀ c ∈ cs, plainChar c = true := List.all_eq_true.mp hall
  have hdots : ¬(cs = ['.', '.', '.']) := by
    intro he
    have hm : '.' ∈ cs := by
      rw [he]
      exact List.mem_cons_self _ _
    exact absurd (hc '.' hm) (by decide)
  have hstar : ¬(cs = ['*']) := by
    intro he
    have hm : '*' ∈ cs := by
      rw [he]
      exact List.mem_cons_self _ _
    exact absurd (hc '*' hm) (by decide)
  have hseg : segRegex (cs, []) = some (cs ++ ['/'], []) := by
    unfold segRegex
    simp [hdots, hstar]
  unfold path_slice_regex
  rw [mapM_singleton, hseg]
  have hbind : ((some ((cs ++ ['/']), ([] : List PySlice))).bind fun x => some [x]) =
      some [(cs ++ ['/'], ([] : List PySlice))] := rfl
  rw [hbind]
  simp only [List.map_cons, List.map_nil, List.flatten_cons, List.flatten_nil,
    List.append_nil]
  rw [pyStripChars_plain_slash cs hne (fun c hcm => (plainChar_spec c (hc c hcm)).1)]

/-- C4, counterexample: a bare literal name is inserted verbatim into the
regex, so a `.` inside the name matches any character: the bare-name
pattern `run.0` matches the component `runX0`, not only `run.0`. -/
theorem c4_counterexample :
    path_in_slice "runX0" "run.0" = some true := by
  decide

/-- C4, amended: a bare literal name with an empty index sequence is
matched as regex text.  For every nonempty name made only of plain
characters (no path separator, index syntax, regex metacharacters or
whitespace), a candidate matches iff it is exactly that name; but a `.`
in a name matches any single character, so `run.0` matches both `run.0`
and `runX0` and rejects `runX00`. -/
theorem c4_bare_literal :
    (∀ (name p : String), name.data ≠ [] → name.data.all plainChar = true →
      (path_in_slice p name = some true ↔ p = name)) ∧
    path_in_slice "run.0" "run.0" = some true ∧
    path_in_slice "runX0" "run.0" = some true ∧
    path_in_slice "runX00" "run.0" = some false := by
  refine ⟨?_, by decide, by decide, by decide⟩
  intro name p hne hall
  rw [path_in_slice_eval p name [(name.data, [])] name.data []
    (name.data.map (fun c => RTok.cls (CClass.one c)))
    (slice_path_plain name hall) (path_slice_regex_plain name.data hne hall)
    (lexRegex_plain name.data hall)]
  unfold pisCore
  rw [rmatch_one_chars name.data p.data]
  by_cases hp : p.data = name.data
  · rw [if_pos hp]
    constructor
    · intro _
      exact String.ext hp
    · intro _
      rfl
  · rw [if_neg hp]
    dsimp only
    constructor
    · intro hfalse
      exact absurd (Option.some.inj hfalse) (by decide)
    · intro hr
      exact absurd (by rw [hr]) hp

/-- Refinement between the filtered and unfiltered result folds: whenever
the filtered fold succeeds, the unfiltered fold succeeds and the filtered
result is the unfiltered one, restricted to true leaves exactly when the
ellipsis-suffix flag is set. -/
theorem collectLeaves_spec (e incA incG : Bool) (toks : List RTok)
    (sls : List PySlice) :
    ∀ (l : List NodeInfo) (res : List NodeInfo),
      collectLeaves e incA incG toks sls l = some res →
      ∃ all, collectMatches incA incG toks sls l = some all ∧
        res = (if e then all.filter leafP else all) := by
  intro l
  induction l with
  | nil =>
    intro res h
    refine ⟨[], rfl, ?_⟩
    have : res = [] := (Option.some.inj h).symm
    rw [this]
    cases e <;> rfl
  | cons n rest ih =>
    intro res h
    by_cases hskip : (n.isArr && !incA) || (!n.isArr && !incG)
    · rw [collectLeaves, if_pos hskip] at h
      obtain ⟨all, hall, hres⟩ := ih res h
      refine ⟨all, ?_, hres⟩
      rw [collectMatches, if_pos hskip]
      exact hall
    · rw [collectLeaves, if_neg hskip] at h
      cases hm : pisCore toks sls n.path with
      | none =>
        rw [hm] at h
        exact Option.noConfusion h
      | some m =>
        rw [hm] at h
        cases ht : collectLeaves e incA incG toks sls rest with
        | none =>
          rw [ht] at h
          exact Option.noConfusion h
        | some tail =>
          rw [ht] at h
          obtain ⟨all, hall, htail⟩ := ih tail ht
          refine ⟨if m then n :: all else all, ?_, ?_⟩
          · rw [collectMatches, if_neg hskip, hm, hall]
            cases m <;> rfl
          · cases m with
            | false =>
              simp only [if_neg, Bool.false_eq_true, if_false] at h ⊢
              rw [← Option.some.inj h, htail]
            | true =>
              simp only [if_pos, if_true] at h ⊢
              cases e with
              | false =>
                rw [← Option.some.inj h, htail]
                rfl
              | true =>
                by_cases hl : leafP n
                · rw [if_pos hl] at h
                  rw [← Option.some.inj h, htail]
                  simp [List.filter, hl]
                · rw [if_neg hl] at h
                  rw [← Option.some.inj h, htail]
                  simp [List.filter, hl]

/-- C5, counterexample: for the pattern string `a...` the final segment
is the literal name `a...`, not an ellipsis, yet `find_leaves` applies
the leaves-only filter (the code tests the pattern *string* for the
suffix `...`): the group `abcd` is a structural match with the include
toggles on (shown by `find_matches` and `path_in_slice`), but it has a
child, so `find_leaves` drops it and returns nothing. -/
theorem c5_counterexample :
    find_leaves dotsTree "a..." true true = some [] ∧
    find_matches dotsTree "a..." true true = some [⟨"abcd", false, 1⟩] ∧
    path_in_slice "abcd" "a..." = some true := by
  refine ⟨by decide, by decide, by decide⟩

/-- C5, amended: the leaves-only filter is keyed on the pattern *string*
ending with the three characters `...` (which subsumes a final `...`
segment, but also a final literal name such as `a...`): whenever
`find_leaves` succeeds, its result is the list of all structural matches
passing the include toggles, restricted to true leaves (a leaf array or a
childless container) exactly when the pattern string ends with `...`. -/
theorem c5_leaf_filter :
    ∀ (children : ZForest) (pat : String) (incA incG : Bool)
      (res : List NodeInfo),
      find_leaves children pat incA incG = some res →
      ∃ all, find_matches children pat incA incG = some all ∧
        res = (if pyEndsWith pat "..." then all.filter leafP else all) := by
  intro children pat incA incG res h
  cases h1 : slice_path pat with
  | none =>
    simp only [find_leaves, h1] at h
    exact Option.noConfusion h
  | some segs =>
    simp only [find_leaves, h1] at h
    cases h2 : path_slice_regex segs with
    | none =>
      simp only [h2] at h
      exact Option.noConfusion h
    | some pr =>
      obtain ⟨rx, sls⟩ := pr
      simp only [h2] at h
      cases h3 : lexRegex rx with
      | none =>
        simp only [h3] at h
        exact Option.noConfusion h
      | some toks =>
        simp only [h3] at h
        obtain ⟨all, hall, hres⟩ :=
          collectLeaves_spec (pyEndsWith pat "...") incA incG toks sls
            (visitAll children) res h
        refine ⟨all, ?_, hres⟩
        simp only [find_matches, h1, h2, h3]
        exact hall

/-- C5 witness: the amended statement applied to the `a...` pattern over
the `abcd` hierarchy: the single structural match is filtered out because
the string ends with `...`. -/
theorem c5_witness :
    ∃ all, find_matches dotsTree "a..." true true = some all ∧
      ([] : List NodeInfo) = (if pyEndsWith "a..." "..." then all.filter leafP else all) :=
  c5_leaf_filter dotsTree "a..." true true [] (by decide)

/-- Digit characters are never an underscore. -/
theorem digitCh_ne_underscore (n : Nat) : digitCh n ≠ '_' := by
  unfold digitCh
  split <;> decide

/-- The decimal printing of a natural number contains no underscore. -/
theorem natDigitsAux_no_underscore (f n : Nat) : '_' ∉ natDigitsAux f n := by
  induction f generalizing n with
  | zero => simp [natDigitsAux]
  | succ f ih =>
    unfold natDigitsAux
    by_cases h : n < 10
    · rw [if_pos h]
      intro hm
      exact digitCh_ne_underscore n (List.mem_singleton.mp hm).symm
    · rw [if_neg h]
      intro hm
      rcases List.mem_append.mp hm with h1 | h2
      · exact ih (n / 10) h1
      · exact digitCh_ne_underscore (n % 10) (List.mem_singleton.mp h2).symm

/-- `str(n)` contains no underscore. -/
theorem pyStrNat_no_underscore (n : Nat) : '_' ∉ (pyStrNat n).data :=
  natDigitsAux_no_underscore (n + 1) n

/-- `findSub` locates the first occurrence of a character after a prefix
that avoids it. -/
theorem findSub_single (a b : List Char) (c : Char) (h : c ∉ a) :
    findSub (a ++ c :: b) [c] = some a.length := by
  induction a with
  | nil =>
    rw [List.nil_append]
    unfold findSub
    have hpre : [c].isPrefixOf (c :: b) = true :=
      List.isPrefixOf_iff_prefix.mpr ⟨b, rfl⟩
    rw [if_pos hpre]
    rfl
  | cons x a ih =>
    have hx : x ≠ c := fun hxc => h (hxc ▸ List.mem_cons_self x a)
    have ha : c ∉ a := fun hc => h (List.mem_cons_of_mem x hc)
    rw [List.cons_append]
    unfold findSub
    rw [if_neg (by
      intro hpre
      obtain ⟨t, ht⟩ := List.isPrefixOf_iff_prefix.mp hpre
      exact hx ((List.cons.inj ht).1).symm)]
    dsimp only
    rw [ih ha]
    rfl

/-- Character data of a candidate key: the desired key, an underscore,
then the printed counter. -/
theorem candKey_data (k : String) (j : Nat) :
    (candKey k j).data = k.data ++ '_' :: (pyStrNat j).data := by
  unfold candKey
  simp [List.append_assoc]

/-- The last underscore of a candidate key is the appended one. -/
theorem rfindIdx_candKey (k : String) (j : Nat) :
    rfindIdx (candKey k j).data '_' = some k.data.length := by
  unfold rfindIdx
  rw [candKey_data]
  have hrev : (k.data ++ '_' :: (pyStrNat j).data).reverse =
      (pyStrNat j).data.reverse ++ '_' :: k.data.reverse := by
    simp
  rw [hrev, findSub_single _ _ _ (by
    intro hm
    exact pyStrNat_no_underscore j (List.mem_reverse.mp hm))]
  simp only [Option.some.injEq, List.length_reverse]
  have h1 : (k.data ++ '_' :: (pyStrNat j).data).length =
      k.data.length + ((pyStrNat j).data.length + 1) := by
    simp
  omega

/-- Bumping a candidate key replaces the printed counter: the loop's
successive candidates are `k_1`, `k_2`, `k_3`, …. -/
theorem bumpKey_candKey (k : String) (j i : Nat) :
    bumpKey (candKey k j) i = candKey k i := by
  unfold bumpKey
  rw [rfindIdx_candKey, candKey_data]
  dsimp only
  have htake : (k.data ++ '_' :: (pyStrNat j).data).take (k.data.length + 1) =
      k.data ++ ['_'] := by
    rw [List.take_append 1]
    rfl
  rw [htake]
  apply String.ext
  rw [candKey_data]
  have : (String.mk (k.data ++ ['_'])).data = k.data ++ ['_'] := rfl
  simp [this, List.append_assoc]

/-- The first loop candidate `key + '_1'` is candidate number 1. -/
theorem candKey_one (k : String) : candKey k 1 = k ++ "_1" := by
  apply String.ext
  rw [candKey_data]
  have : (pyStrNat 1).data = ['1'] := rfl
  rw [this]
  rfl

/-- Characterization of the suffix-increment loop: starting from
candidate `j` with counter `j+1`, a successful search returns the first
free candidate at or after `j`. -/
theorem uniqueLoop_spec (f : Nat) :
    ∀ (k : String) (j : Nat) (sibs : List String) (r : String),
      uniqueLoop f (candKey k j) (j + 1) sibs = some r →
      ∃ m, j ≤ m ∧ r = candKey k m ∧ memStr (candKey k m) sibs = false ∧
        ∀ t, j ≤ t → t < m → memStr (candKey k t) sibs = true := by
  induction f with
  | zero =>
    intro k j sibs r h
    exact Option.noConfusion h
  | succ f ih =>
    intro k j sibs r h
    rw [uniqueLoop] at h
    by_cases hmem : memStr (candKey k j) sibs
    · rw [if_pos hmem, bumpKey_candKey] at h
      obtain ⟨m, hm1, hm2, hm3, hm4⟩ := ih k (j + 1) sibs r h
      refine ⟨m, by omega, hm2, hm3, ?_⟩
      intro t ht1 ht2
      rcases Nat.eq_or_lt_of_le ht1 with he | hl
      · rw [← he]
        exact hmem
      · exact hm4 t hl ht2
    · rw [if_neg hmem] at h
      refine ⟨j, le_refl j, (Option.some.inj h).symm, ?_, ?_⟩
      · exact Bool.not_eq_true _ ▸ (Bool.eq_false_iff.mpr hmem)
      · intro t ht1 ht2
        omega

/-- Full characterization of `get_unique_key`'s search: the desired key
if free, otherwise the first free candidate among `k_1`, `k_2`, `k_3`, …
(the loop's counter values; sibling numerals are never read). -/
theorem unique_key_core_spec (k : String) (sibs : List String) (r : String)
    (h : unique_key_core k sibs = some r) :
    (memStr k sibs = false ∧ r = k) ∨
    (memStr k sibs = true ∧
      ∃ m, 1 ≤ m ∧ r = candKey k m ∧ memStr (candKey k m) sibs = false ∧
        ∀ t, 1 ≤ t → t < m → memStr (candKey k t) sibs = true) := by
  unfold unique_key_core at h
  by_cases hmem : memStr k sibs
  · rw [if_pos hmem, ← candKey_one] at h
    right
    refine ⟨hmem, ?_⟩
    obtain ⟨m, hm1, hm2, hm3, hm4⟩ := uniqueLoop_spec (sibs.length + 1) k 1 sibs r h
    exact ⟨m, hm1, hm2, hm3, hm4⟩
  · rw [if_neg hmem] at h
    left
    exact ⟨Bool.eq_false_iff.mpr hmem, (Option.some.inj h).symm⟩

/-- C6: over siblings `{a, a_1, a_3}`, requesting `a` yields exactly
`a_2`; and in general, whenever the desired key is taken, the algorithm
appends `_1` and then replaces the numeral after the last `_` with
2, 3, … in turn, returning the first candidate absent from the sibling
keys. -/
theorem c6_unique_key :
    unique_key_core "a" ["a", "a_1", "a_3"] = some "a_2" ∧
    ∀ (k : String) (sibs : List String) (r : String),
      unique_key_core k sibs = some r →
      (memStr k sibs = false ∧ r = k) ∨
      (memStr k sibs = true ∧
        ∃ m, 1 ≤ m ∧ r = candKey k m ∧ memStr (candKey k m) sibs = false ∧
          ∀ t, 1 ≤ t → t < m → memStr (candKey k t) sibs = true) :=
  ⟨by decide, unique_key_core_spec⟩

/-- C6 witness: the characterization applied to the `{a, a_1, a_3}`
instance. -/
theorem c6_witness :
    (memStr "a" ["a", "a_1", "a_3"] = false ∧ "a_2" = "a") ∨
    (memStr "a" ["a", "a_1", "a_3"] = true ∧
      ∃ m, 1 ≤ m ∧ "a_2" = candKey "a" m ∧
        memStr (candKey "a" m) ["a", "a_1", "a_3"] = false ∧
        ∀ t, 1 ≤ t → t < m → memStr (candKey "a" t) ["a", "a_1", "a_3"] = true) :=
  c6_unique_key.2 "a" ["a", "a_1", "a_3"] "a_2" c6_unique_key.1

/-- C7, counterexample: the loop's numeral is a freshly tracked counter,
not a numeral read from a sibling.  With siblings `{a, a_1, a_7}` —
`a_7` unrelated to the collision chain — requesting `a` yields `a_2`
(the counter's next value), not the `a_8` successor of the sibling's 7;
and requesting the key `a_7` itself with `{a_7}` yields `a_7_1` (append
`_1`), not `a_8` (increment of the found numeral 7). -/
theorem c7_counterexample :
    unique_key_core "a" ["a", "a_1", "a_7"] = some "a_2" ∧
    unique_key_core "a_7" ["a_7"] = some "a_7_1" ∧
    "a_2" ≠ "a_8" ∧ "a_7_1" ≠ "a_8" := by
  refine ⟨by decide, by decide, by decide, by decide⟩

/-- C7, amended: the generated key is always the desired key itself or
`k ++ "_" ++ str(j)` for the counter value `j` at which the loop stopped
— the numeral written is the freshly tracked counter's, and a sibling key
ending in `_7` influences the result only by occupying a candidate slot,
never through its own numeral. -/
theorem c7_counter_suffix :
    (∀ (k : String) (sibs : List String) (r : String),
      unique_key_core k sibs = some r →
      r = k ∨ ∃ j, 1 ≤ j ∧ r = candKey k j) ∧
    unique_key_core "a" ["a", "a_1", "a_7"] = some "a_2" := by
  refine ⟨?_, by decide⟩
  intro k sibs r h
  rcases unique_key_core_spec k sibs r h with ⟨-, hr⟩ | ⟨-, m, hm1, hm2, -, -⟩
  · exact Or.inl hr
  · exact Or.inr ⟨m, hm1, hm2⟩

/-- C7 witness: the amended statement applied to the `{a_7}` instance,
where the result appends `_1` rather than advancing the found numeral. -/
theorem c7_witness :
    "a_7_1" = "a_7" ∨ ∃ j, 1 ≤ j ∧ "a_7_1" = candKey "a_7" j :=
  c7_counter_suffix.1 "a_7" ["a_7"] "a_7_1" (by decide)

/-- C8: for a list attribute `[a, b, c]` with item indices `[0, 1, 2]`,
inserting a value at position 1 leaves item 0's index unchanged and moves
the items previously at positions 1 and 2 to indices 2 and 3; removing
position 1 afterwards decrements every index at or after the removed
position and restores exactly the original state (insert-then-remove is
the identity). -/
theorem c8_insert_remove_roundtrip (α : Type) (a b c v : α) :
    insert_child_attr (⟨[a, b, c], [0, 1, 2]⟩ : ListAttrState α) 1 v =
      some ⟨[a, v, b, c], [0, 1, 2, 3]⟩ ∧
    remove_child_attr (⟨[a, v, b, c], [0, 1, 2, 3]⟩ : ListAttrState α) 1 =
      some ⟨[a, b, c], [0, 1, 2]⟩ := by
  constructor
  · rfl
  · rfl

/-- Membership test used by the unique-key search agrees with list
membership. -/
theorem memStr_iff (k : String) (l : List String) : memStr k l = true ↔ k ∈ l := by
  unfold memStr
  rw [List.any_eq_true]
  constructor
  · rintro ⟨s, hs, hd⟩
    rw [← of_decide_eq_true hd]
    exact hs
  · intro h
    exact ⟨k, h, by simp⟩

/-- C9: for rename (`set_key` on a group/array item) and move
(`move_to`), the backing-store rename is attempted before any in-memory
mutation: with a store whose rename always fails, both operations return
`false` with the store state and the item subtree (paths and child links)
exactly as before, and the failure is reported only through the returned
boolean (the operations are total). -/
theorem c9_store_failure_atomic (σ : Type) (ren : σ → String → String → Option σ)
    (st : σ) (hasParent : Bool) (sibs : List (IKind × String)) (self : TItem)
    (k u : String)
    (hren : ∀ o n, ren st o n = none)
    (hu : item_get_unique_key hasParent IKind.group (strippedKey k) sibs = some u) :
    zset_key σ ren st hasParent sibs self k = some (st, self, false) ∧
    ∀ (selfIsGrpArr dstIsGroup dstIsSelfParent : Bool)
      (dstChildKeys : List String) (dstPath : String),
      zmove_to σ ren st hasParent selfIsGrpArr self dstIsGroup dstIsSelfParent
        dstChildKeys dstPath = (st, self, false) := by
  constructor
  · unfold zset_key
    split
    · rfl
    · dsimp only
      split
      · rfl
      · rw [hu]
        dsimp only
        split
        · rfl
        · rw [hren]
  · intro selfIsGrpArr dstIsGroup dstIsSelfParent dstChildKeys dstPath
    unfold zmove_to
    split
    · rfl
    · split
      · rfl
      · split
        · rfl
        · split
          · rfl
          · dsimp only
            split
            · rfl
            · rw [hren]

/-- C9 witness: both operations at a concrete failing store. -/
theorem c9_witness :
    zset_key Unit (fun _ _ _ => none) () true [] (TItem.node "x/a" []) "b" =
      some ((), TItem.node "x/a" [], false) ∧
    ∀ (selfIsGrpArr dstIsGroup dstIsSelfParent : Bool)
      (dstChildKeys : List String) (dstPath : String),
      zmove_to Unit (fun _ _ _ => none) () true selfIsGrpArr
        (TItem.node "x/a" []) dstIsGroup dstIsSelfParent dstChildKeys dstPath =
        ((), TItem.node "x/a" [], false) :=
  c9_store_failure_atomic Unit (fun _ _ _ => none) () true [] (TItem.node "x/a" [])
    "b" "b" (fun _ _ => rfl) (by decide)

/-- C10: unique-key generation partitions siblings by kind — a group or
array item checks its candidate only against group/array siblings, an
attr item only against attr siblings; hence a requested group/array key
that collides only with an attr sibling's key (or vice versa) is returned
unchanged, with no suffix appended. -/
theorem c10_kind_partition (k : String) (sibs : List (IKind × String)) :
    ((∀ p ∈ sibs, p.2 = k → p.1 = IKind.attr) →
      item_get_unique_key true IKind.group k sibs = some k ∧
      item_get_unique_key true IKind.array k sibs = some k) ∧
    ((∀ p ∈ sibs, p.2 = k → p.1 = IKind.group ∨ p.1 = IKind.array) →
      item_get_unique_key true IKind.attr k sibs = some k) := by
  constructor
  · intro h
    have hmem : ∀ kd, kindKeys kd sibs =
        (sibs.filter (fun s => decide (s.1 = IKind.group ∨ s.1 = IKind.array))).map
          Prod.snd → memStr k (kindKeys kd sibs) = false := by
      intro kd hkd
      rw [hkd]
      rw [Bool.eq_false_iff]
      intro hmm
      obtain ⟨p, hp, hpk⟩ := List.mem_map.mp ((memStr_iff _ _).mp hmm)
      obtain ⟨hps, hpd⟩ := List.mem_filter.mp hp
      rcases of_decide_eq_true hpd with hg | ha
      · exact IKind.noConfusion ((h p hps hpk).symm.trans hg)
      · exact IKind.noConfusion ((h p hps hpk).symm.trans ha)
    constructor
    · show unique_key_core k (kindKeys IKind.group sibs) = some k
      unfold unique_key_core
      rw [if_neg (by rw [hmem IKind.group rfl]; exact Bool.false_ne_true)]
    · show unique_key_core k (kindKeys IKind.array sibs) = some k
      unfold unique_key_core
      rw [if_neg (by rw [hmem IKind.array rfl]; exact Bool.false_ne_true)]
  · intro h
    have hmemf : memStr k (kindKeys IKind.attr sibs) = false := by
      rw [Bool.eq_false_iff]
      intro hmm
      obtain ⟨p, hp, hpk⟩ := List.mem_map.mp ((memStr_iff _ _).mp hmm)
      obtain ⟨hps, hpd⟩ := List.mem_filter.mp hp
      have := of_decide_eq_true hpd
      rcases h p hps hpk with hg | ha
      · exact IKind.noConfusion (this.symm.trans hg)
      · exact IKind.noConfusion (this.symm.trans ha)
    show unique_key_core k (kindKeys IKind.attr sibs) = some k
    unfold unique_key_core
    rw [if_neg (by rw [hmemf]; exact Bool.false_ne_true)]

/-- C10 witness: a group key colliding only with an attr sibling's key,
and an attr key colliding only with a group sibling's key, are returned
unchanged. -/
theorem c10_witness :
    (item_get_unique_key true IKind.group "a" [(IKind.attr, "a")] = some "a" ∧
      item_get_unique_key true IKind.array "a" [(IKind.attr, "a")] = some "a") ∧
    item_get_unique_key true IKind.attr "b" [(IKind.group, "b")] = some "b" :=
  ⟨(c10_kind_partition "a" [(IKind.attr, "a")]).1 (by decide),
   (c10_kind_partition "b" [(IKind.group, "b")]).2 (by decide)⟩

/-- C4 witness: the exact-match equivalence applied to the all-plain
name `run` and the candidate `run` itself. -/
theorem c4_witness :
    path_in_slice "run" "run" = some true ↔ "run" = "run" :=
  c4_bare_literal.1 "run" "run" (by decide) (by decide)

/-- C8 witness: the round trip at concrete integer values. -/
theorem c8_witness :
    insert_child_attr (⟨[10, 20, 30], [0, 1, 2]⟩ : ListAttrState Int) 1 9 =
      some ⟨[10, 9, 20, 30], [0, 1, 2, 3]⟩ ∧
    remove_child_attr (⟨[10, 9, 20, 30], [0, 1, 2, 3]⟩ : ListAttrState Int) 1 =
      some ⟨[10, 20, 30], [0, 1, 2]⟩ :=
  c8_insert_remove_roundtrip Int 10 20 30 9
